import Mathlib

/-!
Verification of the dialogue-processing core of
`scripts/process_bilibili_dialogue.py`: the speaker-attribution state
machine (`label_speakers`), the turn aggregator (`merge_turns`), the
punctuation normalizer (`punctuate`), the stage segmenter
(`split_stage_ranges`) and the time-range renderer (`range_label` /
`fmt_time`).  Strings are modelled by Lean `String` / `List Char`;
Python substring membership (`k in s`), `str.endswith`, `str.strip`
and the one regex (`[，]{2,}` collapse) are given explicit executable
definitions.
-/

namespace Bili

/-- Python `needle in hay` (substring containment) on character lists. -/
def containsSub (hay needle : List Char) : Bool :=
  hay.tails.any (fun t => needle.isPrefixOf t)

/-- Python `needle in hay` on strings. -/
def strIn (needle hay : String) : Bool :=
  containsSub hay.toList needle.toList

/-- Python `s.endswith(suffix)`. -/
def strEndsWith (s suffix : String) : Bool :=
  suffix.toList.isSuffixOf s.toList

/-- `teacher_cues` from `label_speakers`. -/
def teacherCues : List String :=
  ["同学们", "今天这节课", "我们一起", "我请", "开始吧", "大点声音", "谁能", "谁来", "为什么", "对不对", "下课"]

/-- `class_cues` from `label_speakers`. -/
def classCues : List String :=
  ["老师好", "老师再见", "同意吗", "大家一起说"]

/-- `question_cues` from `label_speakers`. -/
def questionCues : List String :=
  ["吗", "呢", "谁", "为什么", "怎么", "有没有"]

/-- The running state of `label_speakers`: `mode` (last confirmed
individual speaker, initially `"老师"`) and the `expect_student` flag. -/
structure LabelState where
  mode : String
  expect_student : Bool
deriving DecidableEq, Repr

/-- The per-line question test of `label_speakers`:
`line.endswith("吗") or line.endswith("呢") or any(k in line for k in question_cues)`. -/
def questionSignal (line : String) : Bool :=
  strEndsWith line "吗" || strEndsWith line "呢" || questionCues.any (fun k => strIn k line)

/-- The speaker chosen for one line by the first `if` chain of
`label_speakers` (class cue, then teacher cue, then `expect_student`,
then carry-forward `mode`). -/
def assignedSpk (st : LabelState) (line : String) : String :=
  if classCues.any (fun k => strIn k line) then "全班"
  else if teacherCues.any (fun k => strIn k line) then "老师"
  else if st.expect_student then "学生"
  else st.mode

/-- The value of `expect_student` right after the speaker assignment:
the class-cue branch clears it, every other branch leaves it alone. -/
def expectAfterAssign (st : LabelState) (line : String) : Bool :=
  if classCues.any (fun k => strIn k line) then false else st.expect_student

/-- One iteration of the `label_speakers` loop: the assigned speaker
together with the updated state (`expect_student` update, then `mode`
update, exactly as in the source). -/
def labelStep (st : LabelState) (line : String) : String × LabelState :=
  let spk := assignedSpk st line
  let est1 := expectAfterAssign st line
  let est2 :=
    if spk = "老师" ∧ questionSignal line = true then true
    else if spk = "学生" ∨ spk = "全班" then false
    else est1
  let mode2 := if spk = "老师" ∨ spk = "学生" then spk else st.mode
  (spk, ⟨mode2, est2⟩)

/-- The `label_speakers` loop, returning the `(speaker, line)` pairs in
order. -/
def labelSpeakersAux : LabelState → List String → List (String × String)
  | _, [] => []
  | st, line :: rest =>
    let p := labelStep st line
    (p.1, line) :: labelSpeakersAux p.2 rest

/-- `label_speakers(lines)`: each line rendered as `f"{spk}：{line}"`,
starting from `mode = "老师"`, `expect_student = False`. -/
def label_speakers (lines : List String) : List String :=
  (labelSpeakersAux ⟨"老师", false⟩ lines).map (fun p => p.1 ++ "：" ++ p.2)

/-- The speakers assigned by `label_speakers`, without the formatting. -/
def speakersOf (lines : List String) : List String :=
  (labelSpeakersAux ⟨"老师", false⟩ lines).map (fun p => p.1)

/-- The five-line example input from the specification. -/
def exampleLines : List String :=
  ["同学们，今天这节课我们学称象", "从前有一头大象", "为什么不能直接称呢", "因为太重了，称不了", "下课"]

/-- Python `line.split("：", 1)` when `"：" in line`: the part before the
first `：` and the part after it; `none` when the separator is absent. -/
def splitOnce : List Char → Option (List Char × List Char)
  | [] => none
  | c :: rest =>
    if c = '：' then some ([], rest)
    else (splitOnce rest).map (fun p => (c :: p.1, p.2))

/-- Python `s.strip()` (whitespace strip at both ends). -/
def pyStrip (l : List Char) : List Char :=
  ((l.dropWhile Char.isWhitespace).reverse.dropWhile Char.isWhitespace).reverse

/-- One iteration of the `merge_turns` loop.  The accumulator keeps
the turns in reverse order, so that the Python mutation of `turns[-1]`
is an update of the head: lines without `：` are skipped, the
speaker/text parts are stripped, empty texts are dropped, and a line
whose speaker equals the last emitted turn's speaker is joined to it
with `，`. -/
def mergeStep (acc : List (String × String)) (line : String) : List (String × String) :=
  match splitOnce line.toList with
  | none => acc
  | some p =>
    let spk := String.mk (pyStrip p.1)
    let txt := String.mk (pyStrip p.2)
    if txt = "" then acc
    else
      match acc with
      | (s0, t0) :: acc' =>
        if s0 = spk then (s0, t0 ++ "，" ++ txt) :: acc'
        else (spk, txt) :: (s0, t0) :: acc'
      | [] => [(spk, txt)]

/-- `merge_turns(labeled)` from the source (the reverse restores the
emission order of the reversed accumulator). -/
def merge_turns (labeled : List String) : List (String × String) :=
  (labeled.foldl mergeStep []).reverse

/-- One step of collapsing runs of `，` (the regex
`re.sub(r"[，]{2,}", "，", text)`): `prevComma` records whether the
previously emitted character was `，`. -/
def collapseAux (prevComma : Bool) : List Char → List Char
  | [] => []
  | c :: rest =>
    if c = '，' then
      if prevComma then collapseAux true rest
      else c :: collapseAux true rest
    else c :: collapseAux false rest

/-- The characters stripped by `punctuate`: `"，。？！；、 "`. -/
def stripSet : List Char := ['，', '。', '？', '！', '；', '、', ' ']

/-- Removal of trailing characters satisfying `p`. -/
def dropTrail (p : Char → Bool) (l : List Char) : List Char :=
  (l.reverse.dropWhile p).reverse

/-- `text.strip("，。？！；、 ")` (leading then trailing strip). -/
def stripPunct (l : List Char) : List Char :=
  dropTrail (fun c => stripSet.contains c) (l.dropWhile (fun c => stripSet.contains c))

/-- `q_cues` from `punctuate`. -/
def qCues : List String :=
  ["吗", "呢", "为什么", "怎么", "谁", "有没有", "对不对", "是不是"]

/-- The interrogative test of `punctuate`:
`any(c in text for c in q_cues) or text.endswith(("吗", "呢"))`. -/
def isInterrogative (t : List Char) : Bool :=
  qCues.any (fun c => containsSub t c.toList) ||
    (['吗'].isSuffixOf t || ['呢'].isSuffixOf t)

/-- `punctuate(text)` from the source: collapse `，` runs, strip the
punctuation set from both ends, return `""` on empty, otherwise append
`？` when interrogative and `。` otherwise. -/
def punctuate (text : String) : String :=
  if stripPunct (collapseAux false text.toList) = [] then ""
  else if isInterrogative (stripPunct (collapseAux false text.toList)) then
    String.mk (stripPunct (collapseAux false text.toList) ++ ['？'])
  else String.mk (stripPunct (collapseAux false text.toList) ++ ['。'])

/-! ## Stage segmenter -/

/-- `stage_defs` from `split_stage_ranges`. -/
def stage_defs : List (String × List String) :=
  [("导入与任务建立", ["今天这节课", "走进", "谁能讲", "上课"]),
   ("故事复述与问题聚焦", ["从前", "曹操想称", "他先", "为什么", "直接称"]),
   ("探究建模", ["天平", "西瓜", "菠萝", "桃子", "A等于B", "等量"]),
   ("迁移练习与表达", ["生活中", "小组", "你们的故事", "总结", "姓名牌"]),
   ("回扣称象与总结收束", ["曹冲称象", "分量", "总量", "下课", "老师再见"])]

/-- The five stage names in order. -/
def stageNames : List String := stage_defs.map (fun p => p.1)

/-- `scores`: for each stage, `sum(1 for k in kws if k in txt)`. -/
def lineScores (txt : String) : List Nat :=
  stage_defs.map (fun p => (p.2.filter (fun k => strIn k txt)).length)

/-- Distance `abs(i - prev)` on natural indices. -/
def natDist (a b : Nat) : Nat := max a b - min a b

/-- Python `min(l, key=f)`: the first element of `l` with minimal
`f`-value (`0` on the empty list, which the source never hits). -/
def argminBy (f : Nat → Nat) : List Nat → Nat
  | [] => 0
  | [x] => x
  | x :: xs =>
    let m := argminBy f xs
    if f x ≤ f m then x else m

/-- One iteration of the local assignment loop of
`split_stage_ranges`: score the stages, pick the max-scoring candidate
(ties broken towards `prev`, max score `0` keeps `prev`), and clamp it
to `[prev - 1, prev + 1]`. -/
def localStep (prev : Nat) (txt : String) : Nat :=
  let scores := lineScores txt
  let mx := scores.foldl max 0
  let idx :=
    if mx = 0 then prev
    else argminBy (fun i => natDist i prev)
      ((List.range scores.length).filter (fun i => scores.getD i 0 = mx))
  max (prev - 1) (min (prev + 1) idx)

/-- The local assignment pass (`prev` starts at `0` in the source). -/
def localPass (prev : Nat) : List String → List Nat
  | [] => []
  | t :: ts =>
    let i := localStep prev t
    i :: localPass i ts

/-- The monotonicity sweep, after the first element: any value below
its predecessor is replaced by the predecessor. -/
def monoAux (p : Nat) : List Nat → List Nat
  | [] => []
  | x :: xs =>
    let y := if x < p then p else x
    y :: monoAux y xs

/-- The monotonicity sweep of `split_stage_ranges`. -/
def monoPass : List Nat → List Nat
  | [] => []
  | x :: xs => x :: monoAux x xs

/-- The run-collapsing loop of `split_stage_ranges`: `cur` is the
current run's stage index, `s` its start, `i` the index of the next
line. -/
def chunksAux (cur s i : Nat) : List Nat → List (Nat × Nat × Nat)
  | [] => [(cur, s, i - 1)]
  | a :: rest =>
    if a ≠ cur then (cur, s, i - 1) :: chunksAux a i (i + 1) rest
    else chunksAux cur s (i + 1) rest

/-- The maximal runs of equal stage indices, as `(index, start, end)`
triples (inclusive ends). -/
def chunks : List Nat → List (Nat × Nat × Nat)
  | [] => []
  | a :: rest => chunksAux a 0 0 (a :: rest)

/-- Python dict update `ranges[name] = ...`: an existing key keeps its
position and its start, only the end is replaced; a new key is
appended. -/
def dictUpsert : List (String × Nat × Nat) → String → Nat → Nat → List (String × Nat × Nat)
  | [], name, s, e => [(name, s, e)]
  | (k, s0, e0) :: rest, name, s, e =>
    if k = name then (k, s0, e) :: rest
    else (k, s0, e0) :: dictUpsert rest name s e

/-- The `ranges` dict built from the chunks, keyed by stage name. -/
def rangesOfAssigned (assigned : List Nat) : List (String × Nat × Nat) :=
  (chunks assigned).foldl
    (fun acc c => dictUpsert acc (stageNames.getD c.1 "") c.2.1 c.2.2) []

/-- The proportional-fallback cut points
`[0, int(n*0.12), int(n*0.30), int(n*0.62), int(n*0.84), n]`; the
float products are modelled by the exact rational floors `n*12/100`
etc., which agree with the double-precision originals on every
realistic input size. -/
def cuts (n : Nat) : List Nat :=
  [0, n * 12 / 100, n * 30 / 100, n * 62 / 100, n * 84 / 100, n]

/-- The fallback dict comprehension
`{names[i]: (cuts[i], cuts[i+1]-1) for i in range(5) if cuts[i] < cuts[i+1]}`. -/
def fallbackRanges (n : Nat) : List (String × Nat × Nat) :=
  (List.range 5).filterMap (fun i =>
    if (cuts n).getD i 0 < (cuts n).getD (i + 1) 0 then
      some (stageNames.getD i "", (cuts n).getD i 0, (cuts n).getD (i + 1) 0 - 1)
    else none)

/-- A Python value appearing in a subtitle record field. -/
inductive PyVal
  | vstr (s : String)
  | vint (n : Int)
  | vnone
deriving DecidableEq, Repr

/-- Python `str()` on such a value. -/
def PyVal.toStr : PyVal → String
  | .vstr s => s
  | .vint n => toString n
  | .vnone => "None"

/-- A subtitle record `{content, from, to}`; each field may be absent
(the times, when present, are modelled as exact rationals). -/
structure SubRow where
  content : Option PyVal := none
  start : Option ℚ := none
  stop : Option ℚ := none
deriving DecidableEq

instance : Inhabited SubRow := ⟨{}⟩

/-- `str(row.get("content", ""))`. -/
def contentStr (row : SubRow) : String :=
  (row.content.map PyVal.toStr).getD ""

/-- `split_stage_ranges(subtitle_body)` from the source. -/
def split_stage_ranges (body : List SubRow) : List (String × Nat × Nat) :=
  if body = [] then []
  else
    let assigned := monoPass (localPass 0 (body.map contentStr))
    let ranges := rangesOfAssigned assigned
    if ranges.length < 5 then fallbackRanges body.length else ranges

/-! ## Time-range rendering -/

/-- Floor of a rational, computed by flooring integer division. -/
def ratFloor (q : ℚ) : ℤ := Int.fdiv q.num q.den

/-- Python `round` (banker's rounding, half to even) on an exact
rational. -/
def pyRound (q : ℚ) : ℤ :=
  let f := ratFloor q
  let r := q - (f : ℚ)
  if r < 1/2 then f
  else if 1/2 < r then f + 1
  else if f % 2 = 0 then f else f + 1

/-- Zero-padded two-digit rendering (`f"{n:02d}"` for `n ≥ 0`). -/
def pad2 (n : Nat) : String :=
  if n < 10 then "0" ++ toString n else toString n

/-- `fmt_time(sec)` from the source: clamp to `max(0, int(round(sec)))`
and render `HH:MM:SS`, omitting the hours part when it is zero. -/
def fmt_time (sec : ℚ) : String :=
  let r := pyRound sec
  let s0 : Nat := (if r < 0 then 0 else r).toNat
  let m := s0 / 60
  let s := s0 % 60
  let h := m / 60
  let m2 := m % 60
  if h ≠ 0 then pad2 h ++ ":" ++ pad2 m2 ++ ":" ++ pad2 s
  else pad2 m2 ++ ":" ++ pad2 s

/-- The structured content of the `range_label` output string: the two
formatted times and the minute count (whose one-decimal rendering is
elided). -/
structure RangeLabel where
  startStr : String
  endStr : String
  minutes : ℚ
deriving DecidableEq

/-- `range_label(subtitle_body, rng)` from the source:
`t0 = float(body[s].get("from", 0))`,
`t1 = float(body[e].get("to", body[e].get("from", 0)))`, and the
duration `max(0, t1 - t0) / 60` minutes.  (Indexing is total here via
a default row; the source would raise `IndexError` out of range, a
case never exercised below.) -/
def range_label (body : List SubRow) (rng : Nat × Nat) : RangeLabel :=
  let rowS := body.getD rng.1 default
  let rowE := body.getD rng.2 default
  let t0 := rowS.start.getD 0
  let t1 := rowE.stop.getD (rowE.start.getD 0)
  ⟨fmt_time t0, fmt_time t1, (if t1 - t0 < 0 then 0 else t1 - t0) / 60⟩

/-! ## Derived notions used to state the claims -/

/-- The concatenation of the texts of a turn list, as characters. -/
def turnTexts (ts : List (String × String)) : List Char :=
  (ts.map (fun p => p.2.toList)).flatten

/-- The text a labeled line contributes to `merge_turns`: the stripped
part after the first `：`, or nothing when there is no `：` or the
stripped text is empty. -/
def extractedOf (line : String) : Option String :=
  match splitOnce line.toList with
  | none => none
  | some p =>
    let t := String.mk (pyStrip p.2)
    if t = "" then none else some t

/-- The concatenation of the non-empty input line texts of a labeled
sequence, as characters. -/
def inputTexts (labeled : List String) : List Char :=
  ((labeled.filterMap extractedOf).map String.toList).flatten

/-- Removal of the separator character `，`. -/
def removeSep (l : List Char) : List Char :=
  l.filter (fun c => c != '，')

/-- `cs` is a list of labeled inclusive index ranges that exactly and
consecutively covers `[s, e]`. -/
def CoversExactly {α : Type} (s : Nat) : List (α × Nat × Nat) → Nat → Prop
  | [], e => s = e + 1
  | (_, s1, e1) :: rest, e => s1 = s ∧ s1 ≤ e1 ∧ CoversExactly (e1 + 1) rest e

/-- The window list of the proportional fallback, written as a
recursion over the cut list (window `i` pairs the `i`-th name with
`[cuts[i], cuts[i+1]-1]` and is skipped when empty). -/
def cutWindows : List String → List Nat → List (String × Nat × Nat)
  | name :: names, c0 :: c1 :: rest =>
    (if c0 < c1 then [(name, c0, c1 - 1)] else []) ++ cutWindows names (c1 :: rest)
  | _, _ => []

/-- The stage range a chunk turns into: its stage name with its index
interval. -/
def renameChunk (c : Nat × Nat × Nat) : String × Nat × Nat :=
  (stageNames.getD c.1 "", c.2.1, c.2.2)

/-- No two adjacent `，` characters (the normal form produced by the
collapse step of `punctuate`). -/
def NormSep (l : List Char) : Prop :=
  List.Chain' (fun a b => ¬(a = '，' ∧ b = '，')) l

/-- Replacement of a subtitle row's content field by its `str()`
coercion. -/
def coerceContent (row : SubRow) : SubRow :=
  { row with content := some (.vstr (contentStr row)) }

/-! ## Claims about the Speaker Attribution Engine -/

/-- C1: per line, the speaker is chosen by priority: class cue →
`全班`; else teacher cue → `老师`; else `expect_student` → `学生`; else
the carried-forward `mode` (initially `老师`); and on the five-line
example from §4.1 the assigned speakers are
`[老师, 老师, 老师, 学生, 老师]`. -/
theorem claim1_speaker_priority :
    (∀ st line,
      (classCues.any (fun k => strIn k line) = true →
        (labelStep st line).1 = "全班") ∧
      (classCues.any (fun k => strIn k line) = false →
        teacherCues.any (fun k => strIn k line) = true →
        (labelStep st line).1 = "老师") ∧
      (classCues.any (fun k => strIn k line) = false →
        teacherCues.any (fun k => strIn k line) = false →
        st.expect_student = true →
        (labelStep st line).1 = "学生") ∧
      (classCues.any (fun k => strIn k line) = false →
        teacherCues.any (fun k => strIn k line) = false →
        st.expect_student = false →
        (labelStep st line).1 = st.mode)) ∧
    speakersOf exampleLines = ["老师", "老师", "老师", "学生", "老师"] := by
  constructor
  · intro st line
    refine ⟨fun hc => ?_, fun hc ht => ?_, fun hc ht he => ?_, fun hc ht he => ?_⟩
    · simp [labelStep, assignedSpk, hc]
    · simp [labelStep, assignedSpk, hc, ht]
    · simp [labelStep, assignedSpk, hc, ht, he]
    · simp [labelStep, assignedSpk, hc, ht, he]
  · decide

/-- Witness for C1 at a concrete state and line: a class-cue line is
labelled `全班`. -/
theorem claim1_witness :
    (labelStep ⟨"老师", false⟩ "老师好").1 = "全班" :=
  (claim1_speaker_priority.1 ⟨"老师", false⟩ "老师好").1 (by decide)

/-- The first component of `labelStep` is the assigned speaker. -/
theorem labelStep_fst (st : LabelState) (line : String) :
    (labelStep st line).1 = assignedSpk st line := rfl

/-- The `expect_student` component of `labelStep`, unfolded. -/
theorem labelStep_expect (st : LabelState) (line : String) :
    ((labelStep st line).2).expect_student =
      if assignedSpk st line = "老师" ∧ questionSignal line = true then true
      else if assignedSpk st line = "学生" ∨ assignedSpk st line = "全班" then false
      else expectAfterAssign st line := rfl

/-- The `mode` component of `labelStep`, unfolded. -/
theorem labelStep_mode (st : LabelState) (line : String) :
    ((labelStep st line).2).mode =
      if assignedSpk st line = "老师" ∨ assignedSpk st line = "学生" then assignedSpk st line
      else st.mode := rfl

/-- A line containing a class cue is always assigned the speaker `全班`. -/
theorem assignedSpk_of_class (st : LabelState) (line : String)
    (h : classCues.any (fun k => strIn k line) = true) :
    assignedSpk st line = "全班" := by
  simp [assignedSpk, h]

/-- C2: after assigning the speaker, `expect_student` becomes `true`
exactly on a teacher question line (ending in `吗`/`呢` or containing a
question cue), is cleared on student or class lines, is held over by a
teacher non-question line, and `mode` is updated only to `老师`/`学生`
(never by a `全班` line). -/
theorem claim2_state_update :
    ∀ st line,
      ((labelStep st line).1 = "老师" → questionSignal line = true →
        ((labelStep st line).2).expect_student = true) ∧
      ((labelStep st line).1 = "学生" ∨ (labelStep st line).1 = "全班" →
        ((labelStep st line).2).expect_student = false) ∧
      ((labelStep st line).1 = "老师" → questionSignal line = false →
        ((labelStep st line).2).expect_student = st.expect_student) ∧
      (((labelStep st line).2).expect_student = true →
        ((labelStep st line).1 = "老师" ∧ questionSignal line = true) ∨
          st.expect_student = true) ∧
      ((labelStep st line).1 = "老师" ∨ (labelStep st line).1 = "学生" →
        ((labelStep st line).2).mode = (labelStep st line).1) ∧
      ((labelStep st line).1 = "全班" → ((labelStep st line).2).mode = st.mode) := by
  intro st line
  rw [labelStep_fst, labelStep_expect, labelStep_mode]
  refine ⟨?_, ?_, ?_, ?_, ?_, ?_⟩
  · intro h1 h2
    rw [if_pos ⟨h1, h2⟩]
  · intro h1
    by_cases hA : assignedSpk st line = "老师" ∧ questionSignal line = true
    · rcases h1 with h | h <;> rw [h] at hA <;> exact absurd hA.1 (by decide)
    · rw [if_neg hA, if_pos h1]
  · intro h1 h2
    have hA : ¬(assignedSpk st line = "老师" ∧ questionSignal line = true) := by
      rintro ⟨-, hq⟩
      rw [h2] at hq
      exact Bool.false_ne_true hq
    have hB : ¬(assignedSpk st line = "学生" ∨ assignedSpk st line = "全班") := by
      rw [h1]; decide
    rw [if_neg hA, if_neg hB]
    by_cases hcl : classCues.any (fun k => strIn k line) = true
    · rw [assignedSpk_of_class st line hcl] at h1
      exact absurd h1 (by decide)
    · simp [expectAfterAssign, hcl]
  · intro h1
    by_cases hA : assignedSpk st line = "老师" ∧ questionSignal line = true
    · exact Or.inl hA
    · rw [if_neg hA] at h1
      by_cases hB : assignedSpk st line = "学生" ∨ assignedSpk st line = "全班"
      · rw [if_pos hB] at h1
        exact absurd h1 (by decide)
      · rw [if_neg hB] at h1
        right
        by_cases hcl : classCues.any (fun k => strIn k line) = true
        · simp [expectAfterAssign, hcl] at h1
        · simpa [expectAfterAssign, hcl] using h1
  · intro h1
    rw [if_pos h1]
  · intro h1
    have hB : ¬(assignedSpk st line = "老师" ∨ assignedSpk st line = "学生") := by
      rw [h1]; decide
    rw [if_neg hB]

/-- Witness for C2 at a concrete state and line: a teacher question
line sets `expect_student`. -/
theorem claim2_witness :
    ((labelStep ⟨"老师", false⟩ "为什么不能直接称呢").2).expect_student = true :=
  (claim2_state_update ⟨"老师", false⟩ "为什么不能直接称呢").1 (by decide) (by decide)

/-! ## Claims about the Turn Aggregator -/

/-- A `merge_turns` step preserves the "no two adjacent turns share a
speaker" invariant of the (reversed) accumulator. -/
theorem chain'_mergeStep (acc : List (String × String)) (line : String)
    (h : List.Chain' (fun a b => a.1 ≠ b.1) acc) :
    List.Chain' (fun a b => a.1 ≠ b.1) (mergeStep acc line) := by
  unfold mergeStep
  cases hs : splitOnce line.toList with
  | none => exact h
  | some p =>
    dsimp only
    by_cases ht : String.mk (pyStrip p.2) = ""
    · rw [if_pos ht]
      exact h
    · rw [if_neg ht]
      cases acc with
      | nil => exact List.chain'_singleton _
      | cons hd acc' =>
        obtain ⟨s0, t0⟩ := hd
        dsimp only
        by_cases he : s0 = String.mk (pyStrip p.1)
        · rw [if_pos he]
          exact List.chain'_cons'.mpr (List.chain'_cons'.mp h)
        · rw [if_neg he]
          refine List.chain'_cons'.mpr ⟨fun b hb => ?_, h⟩
          rw [List.head?_cons, Option.mem_def, Option.some_inj] at hb
          subst hb
          exact fun hEq => he hEq.symm

/-- C6: no two adjacent turns produced by `merge_turns` share the same
speaker, and the three-line example merges as specified. -/
theorem claim6_turn_maximality :
    (∀ labeled, List.Chain' (fun a b => a.1 ≠ b.1) (merge_turns labeled)) ∧
    merge_turns ["老师：A", "老师：B", "学生：C"] = [("老师", "A，B"), ("学生", "C")] := by
  constructor
  · intro labeled
    have hfold : ∀ (ls : List String) (acc : List (String × String)),
        List.Chain' (fun a b => a.1 ≠ b.1) acc →
        List.Chain' (fun a b => a.1 ≠ b.1) (ls.foldl mergeStep acc) := by
      intro ls
      induction ls with
      | nil => exact fun acc h => h
      | cons l rest ih => exact fun acc h => ih _ (chain'_mergeStep acc l h)
    have h := hfold labeled [] List.chain'_nil
    unfold merge_turns
    rw [List.chain'_reverse]
    exact h.imp fun {a b} hab => Ne.symm hab
  · decide

/-- `String.toList` turns `++` on strings into `++` on lists. -/
theorem toList_append (a b : String) : (a ++ b).toList = a.toList ++ b.toList := by
  cases a; cases b; rfl

/-- `turnTexts` distributes over `++`. -/
theorem turnTexts_append (ts1 ts2 : List (String × String)) :
    turnTexts (ts1 ++ ts2) = turnTexts ts1 ++ turnTexts ts2 := by
  simp [turnTexts]

/-- `removeSep` distributes over `++`. -/
theorem removeSep_append (l1 l2 : List Char) :
    removeSep (l1 ++ l2) = removeSep l1 ++ removeSep l2 := by
  simp [removeSep]

/-- `inputTexts` on a cons splits into the head line's contribution
and the rest. -/
theorem inputTexts_cons (l : String) (rest : List String) :
    inputTexts (l :: rest) = inputTexts [l] ++ inputTexts rest := by
  cases h : extractedOf l <;> simp [inputTexts, List.filterMap_cons, h]

/-- `turnTexts` of a single turn is its text. -/
theorem turnTexts_singleton (p : String × String) : turnTexts [p] = p.2.toList := by
  simp [turnTexts]

/-- A line without `：` contributes no text. -/
theorem extractedOf_of_nosep (line : String) (hs : splitOnce line.toList = none) :
    extractedOf line = none := by
  unfold extractedOf
  rw [hs]

/-- A line whose post-`：` part strips to the empty string contributes
no text. -/
theorem extractedOf_of_empty (line : String) (p : List Char × List Char)
    (hs : splitOnce line.toList = some p) (ht : String.mk (pyStrip p.2) = "") :
    extractedOf line = none := by
  unfold extractedOf
  rw [hs]
  dsimp only
  rw [if_pos ht]

/-- Any other line contributes its stripped post-`：` part. -/
theorem extractedOf_of_some (line : String) (p : List Char × List Char)
    (hs : splitOnce line.toList = some p) (ht : ¬String.mk (pyStrip p.2) = "") :
    extractedOf line = some (String.mk (pyStrip p.2)) := by
  unfold extractedOf
  rw [hs]
  dsimp only
  rw [if_neg ht]

/-- The separator character alone is removed by `removeSep`. -/
theorem removeSep_sep : removeSep ['，'] = [] := by decide

/-- `removeSep` of the empty list. -/
theorem removeSep_nil : removeSep [] = [] := rfl

/-- Content balance of one `merge_turns` step: separator-free turn
content grows by exactly the line's separator-free extracted text. -/
theorem contentOf_mergeStep (acc : List (String × String)) (line : String) :
    removeSep (turnTexts (mergeStep acc line).reverse) =
      removeSep (turnTexts acc.reverse) ++ removeSep (inputTexts [line]) := by
  unfold mergeStep
  cases hs : splitOnce line.toList with
  | none =>
    have hE := extractedOf_of_nosep line hs
    simp [inputTexts, List.filterMap_cons, hE, removeSep_nil]
  | some p =>
    dsimp only
    by_cases ht : String.mk (pyStrip p.2) = ""
    · rw [if_pos ht]
      have hE := extractedOf_of_empty line p hs ht
      simp [inputTexts, List.filterMap_cons, hE, removeSep_nil]
    · rw [if_neg ht]
      have hE := extractedOf_of_some line p hs ht
      have hx : inputTexts [line] = (String.mk (pyStrip p.2)).toList := by
        simp [inputTexts, List.filterMap_cons, hE]
      rw [hx]
      cases acc with
      | nil => simp [turnTexts, removeSep_nil]
      | cons hd acc' =>
        obtain ⟨s0, t0⟩ := hd
        dsimp only
        by_cases he : s0 = String.mk (pyStrip p.1)
        · rw [if_pos he]
          have h9 : (t0 ++ "，" ++ String.mk (pyStrip p.2)).toList
              = t0.toList ++ ['，'] ++ (String.mk (pyStrip p.2)).toList := by
            rw [toList_append, toList_append]
            rfl
          simp only [List.reverse_cons, turnTexts_append, turnTexts_singleton,
            removeSep_append, h9, removeSep_sep, List.append_nil, List.nil_append,
            List.append_assoc]
        · rw [if_neg he]
          simp only [List.reverse_cons, turnTexts_append, turnTexts_singleton,
            removeSep_append, List.append_assoc]

/-- C7, counterexample to the literal claim: on the single labeled
line `老师：你好，再见` (whose text itself contains the separator
character), the separator-stripped turn concatenation does not
reproduce the input text concatenation. -/
theorem claim7_counterexample :
    ¬ removeSep (turnTexts (merge_turns ["老师：你好，再见"])) =
        inputTexts ["老师：你好，再见"] := by
  decide

/-- C7 (amended): the concatenation of all turn texts equals the
concatenation of all non-empty (post-strip) input line texts once
separator characters are removed from both sides, in order. -/
theorem claim7_content_preservation (labeled : List String) :
    removeSep (turnTexts (merge_turns labeled)) = removeSep (inputTexts labeled) := by
  have key : ∀ (ls : List String) (acc : List (String × String)),
      removeSep (turnTexts (ls.foldl mergeStep acc).reverse) =
        removeSep (turnTexts acc.reverse) ++ removeSep (inputTexts ls) := by
    intro ls
    induction ls with
    | nil => intro acc; simp [inputTexts, removeSep_nil]
    | cons l rest ih =>
      intro acc
      have h1 := ih (mergeStep acc l)
      rw [List.foldl_cons, h1, contentOf_mergeStep, inputTexts_cons l rest,
        removeSep_append, List.append_assoc]
  have h := key labeled []
  simpa [merge_turns, turnTexts] using h

/-! ## Claims about the Punctuation Normalizer -/

/-- The collapse pass produces no adjacent separator pair, and in the
`prevComma = true` state it never emits a leading separator. -/
theorem collapseAux_norm : ∀ l : List Char,
    NormSep (collapseAux true l) ∧ NormSep (collapseAux false l) ∧
      (collapseAux true l).head? ≠ some '，' := by
  intro l
  induction l with
  | nil => exact ⟨List.chain'_nil, List.chain'_nil, by simp [collapseAux]⟩
  | cons c rest ih =>
    by_cases hc : c = '，'
    · subst hc
      have e1 : collapseAux true ('，' :: rest) = collapseAux true rest := by
        simp [collapseAux]
      have e2 : collapseAux false ('，' :: rest) = '，' :: collapseAux true rest := by
        simp [collapseAux]
      refine ⟨?_, ?_, ?_⟩
      · rw [e1]
        exact ih.1
      · rw [e2]
        refine List.chain'_cons'.mpr ⟨?_, ih.1⟩
        intro b hb hand
        apply ih.2.2
        rw [Option.mem_def] at hb
        rw [hb, hand.2]
      · rw [e1]
        exact ih.2.2
    · have e1 : collapseAux true (c :: rest) = c :: collapseAux false rest := by
        simp [collapseAux, hc]
      have e2 : collapseAux false (c :: rest) = c :: collapseAux false rest := by
        simp [collapseAux, hc]
      refine ⟨?_, ?_, ?_⟩
      · rw [e1]
        exact List.chain'_cons'.mpr ⟨fun b _ hand => hc hand.1, ih.2.1⟩
      · rw [e2]
        exact List.chain'_cons'.mpr ⟨fun b _ hand => hc hand.1, ih.2.1⟩
      · rw [e1]
        simpa using hc

/-- When the head is not a separator the `prevComma` flag is
irrelevant. -/
theorem collapseAux_true_eq (l : List Char) (h : l.head? ≠ some '，') :
    collapseAux true l = collapseAux false l := by
  cases l with
  | nil => rfl
  | cons c rest =>
    by_cases hc : c = '，'
    · subst hc
      simp at h
    · simp [collapseAux, hc]

/-- The collapse pass is the identity on separator-normal lists. -/
theorem collapse_id_of_norm : ∀ l : List Char, NormSep l → collapseAux false l = l := by
  intro l
  induction l with
  | nil => intro _; rfl
  | cons c rest ih =>
    intro h
    obtain ⟨h1, h2⟩ := List.chain'_cons'.mp h
    by_cases hc : c = '，'
    · subst hc
      have e : collapseAux false ('，' :: rest) = '，' :: collapseAux true rest := by
        simp [collapseAux]
      have hhd : rest.head? ≠ some '，' := by
        intro hh
        exact h1 '，' (Option.mem_def.mpr hh) ⟨rfl, rfl⟩
      rw [e, collapseAux_true_eq rest hhd, ih h2]
    · have e : collapseAux false (c :: rest) = c :: collapseAux false rest := by
        simp [collapseAux, hc]
      rw [e, ih h2]

/-- `NormSep` restricts to `dropWhile` results. -/
theorem normSep_dropWhile (p : Char → Bool) (l : List Char) (h : NormSep l) :
    NormSep (l.dropWhile p) := by
  obtain ⟨u, hu⟩ := List.dropWhile_suffix (l := l) p
  rw [← hu] at h
  exact (List.chain'_append.mp h).2.1

/-- `NormSep` is stable under reversal. -/
theorem normSep_reverse (l : List Char) (h : NormSep l) : NormSep l.reverse := by
  rw [NormSep, List.chain'_reverse]
  exact h.imp fun {a b} hab hc => hab ⟨hc.2, hc.1⟩

/-- `NormSep` is stable under the two-sided strip. -/
theorem normSep_stripPunct (l : List Char) (h : NormSep l) : NormSep (stripPunct l) := by
  unfold stripPunct dropTrail
  exact normSep_reverse _ (normSep_dropWhile _ _ (normSep_reverse _ (normSep_dropWhile _ _ h)))

/-- The head surviving a `dropWhile` fails the predicate. -/
theorem dropWhile_head_false (p : Char → Bool) :
    ∀ (l : List Char) (a : Char), (l.dropWhile p).head? = some a → p a = false := by
  intro l
  induction l with
  | nil => intro a h; simp [List.dropWhile] at h
  | cons c rest ih =>
    intro a h
    by_cases hc : p c
    · rw [List.dropWhile_cons, if_pos hc] at h
      exact ih a h
    · rw [List.dropWhile_cons, if_neg hc] at h
      have : c = a := by simpa using h
      subst this
      simpa using hc

/-- The last element surviving a `dropTrail` fails the predicate. -/
theorem dropTrail_getLast (p : Char → Bool) (l : List Char) (a : Char)
    (h : (dropTrail p l).getLast? = some a) : p a = false := by
  unfold dropTrail at h
  rw [List.getLast?_reverse] at h
  exact dropWhile_head_false p _ a h

/-- A non-vanishing `dropTrail` keeps the head. -/
theorem dropTrail_head (p : Char → Bool) (l : List Char) (h : dropTrail p l ≠ []) :
    (dropTrail p l).head? = l.head? := by
  unfold dropTrail
  rw [List.head?_reverse]
  obtain ⟨u, hu⟩ := List.dropWhile_suffix (l := l.reverse) p
  have hne : l.reverse.dropWhile p ≠ [] := by
    intro hx
    apply h
    unfold dropTrail
    rw [hx]
    rfl
  calc (l.reverse.dropWhile p).getLast?
      = (u ++ l.reverse.dropWhile p).getLast? := (List.getLast?_append_of_ne_nil u hne).symm
    _ = l.reverse.getLast? := by rw [hu]
    _ = l.head? := List.getLast?_reverse l

/-- A non-empty strip result neither starts nor ends with a character
of the strip set. -/
theorem stripPunct_ends (l : List Char) (h : stripPunct l ≠ []) :
    (∃ a, (stripPunct l).head? = some a ∧ stripSet.contains a = false) ∧
      (∃ z, (stripPunct l).getLast? = some z ∧ stripSet.contains z = false) := by
  obtain ⟨x, xs, hxs⟩ : ∃ x xs, stripPunct l = x :: xs := by
    cases hsp : stripPunct l with
    | nil => exact absurd hsp h
    | cons x xs => exact ⟨x, xs, rfl⟩
  constructor
  · refine ⟨x, by rw [hxs]; rfl, ?_⟩
    have h2 : (stripPunct l).head? = (l.dropWhile (fun c => stripSet.contains c)).head? :=
      dropTrail_head _ _ h
    have h3 : (l.dropWhile (fun c => stripSet.contains c)).head? = some x := by
      rw [← h2, hxs]
      rfl
    exact dropWhile_head_false _ _ x h3
  · obtain ⟨z, hz⟩ : ∃ z, (stripPunct l).getLast? = some z := by
      refine ⟨(x :: xs).getLast (by simp), ?_⟩
      rw [hxs]
      exact List.getLast?_eq_getLast _ _
    exact ⟨z, hz, dropTrail_getLast _ _ z hz⟩

/-- Appending a strip-set character to a stripped, non-empty text and
stripping again recovers the text. -/
theorem stripPunct_append_mark (t : List Char) (m : Char)
    (hm : stripSet.contains m = true)
    (ha : ∃ a, t.head? = some a ∧ stripSet.contains a = false)
    (hz : ∃ z, t.getLast? = some z ∧ stripSet.contains z = false) :
    stripPunct (t ++ [m]) = t := by
  obtain ⟨a, ha1, ha2⟩ := ha
  obtain ⟨z, hz1, hz2⟩ := hz
  cases t with
  | nil => simp at ha1
  | cons c t' =>
    have hca : c = a := by simpa using ha1
    unfold stripPunct
    have hcb : stripSet.contains c = false := by rw [hca]; exact ha2
    have hcm : c ∉ stripSet := by simpa using hcb
    have e1 : ((c :: t') ++ [m]).dropWhile (fun x => stripSet.contains x) = (c :: t') ++ [m] := by
      simp [List.dropWhile_cons, hcm]
    rw [e1]
    unfold dropTrail
    have e2 : ((c :: t') ++ [m]).reverse = m :: (c :: t').reverse := by
      simp
    rw [e2, List.dropWhile_cons, if_pos hm]
    have e4 : ((c :: t').reverse).dropWhile (fun x => stripSet.contains x) = (c :: t').reverse := by
      cases hr : (c :: t').reverse with
      | nil => simp at hr
      | cons y ys =>
        have hy : y = z := by
          have hh : (c :: t').reverse.head? = some z := by
            rw [List.head?_reverse]
            exact hz1
          rw [hr] at hh
          simpa using hh
        have hyb : stripSet.contains y = false := by rw [hy]; exact hz2
        have hym : y ∉ stripSet := by simpa using hyb
        simp [List.dropWhile_cons, hym]
    rw [e4, List.reverse_reverse]

/-- `punctuate` on the empty string. -/
theorem punctuate_empty : punctuate "" = "" := rfl

/-- `punctuate` is `""` exactly when the normalized text is empty. -/
theorem punctuate_eq_of_empty (text : String)
    (h : stripPunct (collapseAux false text.toList) = []) : punctuate text = "" := by
  unfold punctuate
  rw [if_pos h]

/-- Re-normalizing an output `String.mk (t ++ [m])` of `punctuate`
recovers the same normalized text `t`. -/
theorem renormalize_fixed (t : List Char) (m : Char)
    (hm : stripSet.contains m = true) (hm2 : ¬m = '，')
    (hnorm : NormSep t)
    (ha : ∃ a, t.head? = some a ∧ stripSet.contains a = false)
    (hz : ∃ z, t.getLast? = some z ∧ stripSet.contains z = false) :
    stripPunct (collapseAux false (String.mk (t ++ [m])).toList) = t := by
  have h0 : (String.mk (t ++ [m])).toList = t ++ [m] := rfl
  rw [h0]
  have h1 : collapseAux false (t ++ [m]) = t ++ [m] := by
    apply collapse_id_of_norm
    apply List.chain'_append.mpr
    refine ⟨hnorm, List.chain'_singleton m, ?_⟩
    intro x _ y hy
    have hym : m = y := by simpa using hy
    subst hym
    exact fun hand => hm2 hand.2
  rw [h1]
  exact stripPunct_append_mark t m hm ha hz

/-- C8: `punctuate` is idempotent — re-running the normalizer on its
own output changes nothing, in particular no second terminal mark is
appended. -/
theorem claim8_punctuate_idempotent (text : String) :
    punctuate (punctuate text) = punctuate text := by
  by_cases ht : stripPunct (collapseAux false text.toList) = []
  · rw [punctuate_eq_of_empty text ht, punctuate_empty]
  · have hnorm : NormSep (stripPunct (collapseAux false text.toList)) :=
      normSep_stripPunct _ (collapseAux_norm text.toList).2.1
    obtain ⟨ha, hz⟩ := stripPunct_ends (collapseAux false text.toList) ht
    cases hq : isInterrogative (stripPunct (collapseAux false text.toList)) with
    | true =>
      have hout : punctuate text
          = String.mk (stripPunct (collapseAux false text.toList) ++ ['？']) := by
        unfold punctuate
        rw [if_neg ht, if_pos hq]
      rw [hout]
      have hfix := renormalize_fixed (stripPunct (collapseAux false text.toList)) '？'
        (by decide) (by decide) hnorm ha hz
      unfold punctuate
      rw [hfix, if_neg ht, if_pos hq]
    | false =>
      have hout : punctuate text
          = String.mk (stripPunct (collapseAux false text.toList) ++ ['。']) := by
        unfold punctuate
        rw [if_neg ht]
        rw [hq]
        rfl
      rw [hout]
      have hfix := renormalize_fixed (stripPunct (collapseAux false text.toList)) '。'
        (by decide) (by decide) hnorm ha hz
      unfold punctuate
      rw [hfix, if_neg ht, hq]
      rfl

/-! ## Claims about the Stage Segmenter -/

/-- `argminBy` returns an element of a non-empty list. -/
theorem argminBy_mem (f : Nat → Nat) : ∀ (l : List Nat), l ≠ [] → argminBy f l ∈ l := by
  intro l
  induction l with
  | nil => intro h; exact absurd rfl h
  | cons x xs ih =>
    intro _
    cases xs with
    | nil => simp [argminBy]
    | cons y ys =>
      have e : argminBy f (x :: y :: ys)
          = if f x ≤ f (argminBy f (y :: ys)) then x else argminBy f (y :: ys) := rfl
      rw [e]
      by_cases hle : f x ≤ f (argminBy f (y :: ys))
      · rw [if_pos hle]
        exact List.mem_cons_self x (y :: ys)
      · rw [if_neg hle]
        exact List.mem_cons_of_mem x (ih (by simp))

/-- `argminBy` minimizes `f` over the list. -/
theorem argminBy_le (f : Nat → Nat) :
    ∀ (l : List Nat) (y : Nat), y ∈ l → f (argminBy f l) ≤ f y := by
  intro l
  induction l with
  | nil => intro y h; simp at h
  | cons x xs ih =>
    intro y hy
    cases xs with
    | nil =>
      have : y = x := by simpa using hy
      subst this
      simp [argminBy]
    | cons z zs =>
      have e : argminBy f (x :: z :: zs)
          = if f x ≤ f (argminBy f (z :: zs)) then x else argminBy f (z :: zs) := rfl
      rw [e]
      rcases List.mem_cons.mp hy with h1 | h2
      · subst h1
        by_cases hle : f y ≤ f (argminBy f (z :: zs))
        · rw [if_pos hle]
        · rw [if_neg hle]
          exact le_of_lt (lt_of_not_le hle)
      · by_cases hle : f x ≤ f (argminBy f (z :: zs))
        · rw [if_pos hle]
          exact le_trans hle (ih y h2)
        · rw [if_neg hle]
          exact ih y h2

/-- A left fold of `max` lands on its seed or on a list element. -/
theorem foldl_max_mem : ∀ (l : List Nat) (a : Nat), l.foldl max a = a ∨ l.foldl max a ∈ l := by
  intro l
  induction l with
  | nil => intro a; exact Or.inl rfl
  | cons x xs ih =>
    intro a
    rw [List.foldl_cons]
    rcases ih (max a x) with h | h
    · rw [h]
      rcases max_choice a x with h2 | h2
      · exact Or.inl h2
      · exact Or.inr (by rw [h2]; exact List.mem_cons_self x xs)
    · exact Or.inr (List.mem_cons_of_mem x h)

/-- A left fold of `max` bounds the seed and every element. -/
theorem le_foldl_max : ∀ (l : List Nat) (a : Nat),
    a ≤ l.foldl max a ∧ ∀ x ∈ l, x ≤ l.foldl max a := by
  intro l
  induction l with
  | nil => intro a; exact ⟨le_refl a, by simp⟩
  | cons x xs ih =>
    intro a
    rw [List.foldl_cons]
    refine ⟨le_trans (le_max_left a x) (ih (max a x)).1, ?_⟩
    intro y hy
    rcases List.mem_cons.mp hy with h1 | h2
    · subst h1
      exact le_trans (le_max_right a y) (ih (max a y)).1
    · exact (ih (max a x)).2 y h2

/-- C3: one step of the local pass scores the five stages by keyword
count; a zero maximum keeps `prev`, otherwise the candidate is a
max-scoring stage of minimal distance to `prev`; the result is the
candidate clamped to `[prev-1, prev+1]`, which then seeds the next
step. -/
theorem claim3_local_assignment :
    ∀ (prev : Nat) (txt : String),
      ((lineScores txt).foldl max 0 = 0 → localStep prev txt = prev) ∧
      ((lineScores txt).foldl max 0 ≠ 0 →
        ∃ c, c < (lineScores txt).length ∧
          (lineScores txt).getD c 0 = (lineScores txt).foldl max 0 ∧
          (∀ j, j < (lineScores txt).length →
            (lineScores txt).getD j 0 = (lineScores txt).foldl max 0 →
            natDist c prev ≤ natDist j prev) ∧
          localStep prev txt = max (prev - 1) (min (prev + 1) c)) ∧
      (∀ (ts : List String) (t : String),
        localPass prev (t :: ts) = localStep prev t :: localPass (localStep prev t) ts) := by
  intro prev txt
  refine ⟨fun h0 => ?_, fun h0 => ?_, fun ts t => rfl⟩
  · simp only [localStep, h0, if_pos]
    omega
  · set scores := lineScores txt with hS
    set mx := scores.foldl max 0 with hM
    set cands := (List.range scores.length).filter (fun i => scores.getD i 0 = mx) with hC
    have hmem : mx ∈ scores := by
      rcases foldl_max_mem scores 0 with h | h
      · exact absurd h h0
      · exact h
    obtain ⟨i0, hi0, hg0⟩ := List.mem_iff_getElem.mp hmem
    have hi0c : i0 ∈ cands := by
      rw [hC, List.mem_filter]
      refine ⟨List.mem_range.mpr hi0, ?_⟩
      simp only [decide_eq_true_eq]
      rw [List.getD_eq_getElem scores 0 hi0]
      exact hg0
    have hcne : cands ≠ [] := fun hx => by rw [hx] at hi0c; simp at hi0c
    refine ⟨argminBy (fun i => natDist i prev) cands, ?_, ?_, ?_, ?_⟩
    · have := argminBy_mem (fun i => natDist i prev) cands hcne
      rw [hC, List.mem_filter, List.mem_range] at this
      exact this.1
    · have := argminBy_mem (fun i => natDist i prev) cands hcne
      rw [hC, List.mem_filter] at this
      simpa using this.2
    · intro j hj hgj
      exact argminBy_le (fun i => natDist i prev) cands j
        (by rw [hC, List.mem_filter]; exact ⟨List.mem_range.mpr hj, by simpa using hgj⟩)
    · simp only [localStep]
      rw [if_neg h0]

/-- Witness for C3 at a concrete step: a line matching no stage
keyword keeps the previous stage index. -/
theorem claim3_witness : localStep 0 "大家好" = 0 :=
  (claim3_local_assignment 0 "大家好").1 (by decide)

/-- `lineScores` always scores exactly five stages. -/
theorem lineScores_length (txt : String) : (lineScores txt).length = 5 := by
  simp [lineScores, stage_defs]

/-- A local step started at a valid stage index stays in `0..4`. -/
theorem localStep_le (prev : Nat) (txt : String) (h : prev ≤ 4) : localStep prev txt ≤ 4 := by
  simp only [localStep]
  by_cases h0 : (lineScores txt).foldl max 0 = 0
  · rw [if_pos h0]
    omega
  · rw [if_neg h0]
    have hmem : (lineScores txt).foldl max 0 ∈ lineScores txt := by
      rcases foldl_max_mem (lineScores txt) 0 with hx | hx
      · exact absurd hx h0
      · exact hx
    obtain ⟨i0, hi0, hg0⟩ := List.mem_iff_getElem.mp hmem
    have hi0c : i0 ∈ (List.range (lineScores txt).length).filter
        (fun i => (lineScores txt).getD i 0 = (lineScores txt).foldl max 0) := by
      rw [List.mem_filter]
      refine ⟨List.mem_range.mpr hi0, ?_⟩
      simp only [decide_eq_true_eq]
      rw [List.getD_eq_getElem (lineScores txt) 0 hi0]
      exact hg0
    have hcne : (List.range (lineScores txt).length).filter
        (fun i => (lineScores txt).getD i 0 = (lineScores txt).foldl max 0) ≠ [] := by
      intro hx
      rw [hx] at hi0c
      simp at hi0c
    have hmem2 := argminBy_mem (fun i => natDist i prev) _ hcne
    rw [List.mem_filter, List.mem_range] at hmem2
    have h5 := lineScores_length txt
    have := hmem2.1
    omega

/-- Every index the local pass assigns is in `0..4`. -/
theorem localPass_le : ∀ (ts : List String) (prev : Nat), prev ≤ 4 →
    ∀ x ∈ localPass prev ts, x ≤ 4 := by
  intro ts
  induction ts with
  | nil => intro prev _ x hx; simp [localPass] at hx
  | cons t rest ih =>
    intro prev hp x hx
    rw [localPass] at hx
    rcases List.mem_cons.mp hx with h1 | h2
    · subst h1
      exact localStep_le prev t hp
    · exact ih (localStep prev t) (localStep_le prev t hp) x h2

/-- The local pass output has one index per line. -/
theorem localPass_length : ∀ (ts : List String) (prev : Nat),
    (localPass prev ts).length = ts.length := by
  intro ts
  induction ts with
  | nil => intro prev; rfl
  | cons t rest ih => intro prev; simp [localPass, ih]

/-- `monoAux` preserves the length. -/
theorem monoAux_length : ∀ (l : List Nat) (p : Nat), (monoAux p l).length = l.length := by
  intro l
  induction l with
  | nil => intro p; rfl
  | cons x xs ih => intro p; simp [monoAux, ih]

/-- The monotonicity pass preserves the length. -/
theorem monoPass_length (l : List Nat) : (monoPass l).length = l.length := by
  cases l with
  | nil => rfl
  | cons x xs => simp [monoPass, monoAux_length]

/-- `monoAux` emits a chain that is non-decreasing from its seed. -/
theorem monoAux_chain : ∀ (l : List Nat) (p : Nat), List.Chain' (· ≤ ·) (p :: monoAux p l) := by
  intro l
  induction l with
  | nil => intro p; exact List.chain'_singleton p
  | cons x xs ih =>
    intro p
    rw [monoAux]
    refine List.chain'_cons.mpr ⟨?_, ih (if x < p then p else x)⟩
    by_cases hx : x < p
    · rw [if_pos hx]
    · rw [if_neg hx]
      omega

/-- C4 part 1: the monotonicity pass always yields a non-decreasing
sequence. -/
theorem monoPass_chain (l : List Nat) : List.Chain' (· ≤ ·) (monoPass l) := by
  cases l with
  | nil => exact List.chain'_nil
  | cons x xs =>
    rw [monoPass]
    exact monoAux_chain xs x

/-- `monoAux` preserves the `≤ 4` bound. -/
theorem monoAux_le : ∀ (l : List Nat) (p : Nat), p ≤ 4 → (∀ x ∈ l, x ≤ 4) →
    ∀ y ∈ monoAux p l, y ≤ 4 := by
  intro l
  induction l with
  | nil => intro p _ _ y hy; simp [monoAux] at hy
  | cons x xs ih =>
    intro p hp hl y hy
    rw [monoAux] at hy
    have hx4 : x ≤ 4 := hl x (List.mem_cons_self x xs)
    have hy4 : (if x < p then p else x) ≤ 4 := by
      by_cases hx : x < p
      · rw [if_pos hx]; exact hp
      · rw [if_neg hx]; exact hx4
    rcases List.mem_cons.mp hy with h1 | h2
    · subst h1; exact hy4
    · exact ih _ hy4 (fun z hz => hl z (List.mem_cons_of_mem x hz)) y h2

/-- The monotonicity pass preserves the `≤ 4` bound. -/
theorem monoPass_le (l : List Nat) (hl : ∀ x ∈ l, x ≤ 4) : ∀ y ∈ monoPass l, y ≤ 4 := by
  cases l with
  | nil => intro y hy; simp [monoPass] at hy
  | cons x xs =>
    intro y hy
    rw [monoPass] at hy
    rcases List.mem_cons.mp hy with h1 | h2
    · rw [h1]; exact hl x (List.mem_cons_self x xs)
    · exact monoAux_le xs x (hl x (List.mem_cons_self x xs))
        (fun z hz => hl z (List.mem_cons_of_mem x hz)) y h2

/-- The chunk loop covers exactly the positions from the open run's
start to the end of the remaining input. -/
theorem chunksAux_covers : ∀ (l : List Nat) (cur s i : Nat), s < i →
    CoversExactly s (chunksAux cur s i l) (i - 1 + l.length) := by
  intro l
  induction l with
  | nil =>
    intro cur s i hsi
    show CoversExactly s [(cur, s, i - 1)] (i - 1 + 0)
    refine ⟨rfl, ?_, ?_⟩
    · show s ≤ i - 1
      omega
    · show (i - 1) + 1 = (i - 1 + 0) + 1
      omega
  | cons a rest ih =>
    intro cur s i hsi
    by_cases ha : a = cur
    · have e : chunksAux cur s i (a :: rest) = chunksAux cur s (i + 1) rest := by
        simp [chunksAux, ha]
      rw [e]
      have heq : i - 1 + (a :: rest).length = (i + 1) - 1 + rest.length := by
        simp only [List.length_cons]
        omega
      rw [heq]
      exact ih cur s (i + 1) (by omega)
    · have e : chunksAux cur s i (a :: rest) = (cur, s, i - 1) :: chunksAux a i (i + 1) rest := by
        simp [chunksAux, ha]
      rw [e]
      refine ⟨rfl, ?_, ?_⟩
      · show s ≤ i - 1
        omega
      · have h3 : (i - 1) + 1 = i := by omega
        have heq : i - 1 + (a :: rest).length = (i + 1) - 1 + rest.length := by
          simp only [List.length_cons]
          omega
        rw [h3, heq]
        exact ih a i (i + 1) (by omega)

/-- Structural consequences of `CoversExactly`: bounds, pairwise
separation and full coverage. -/
theorem covers_props {α : Type} : ∀ (cs : List (α × Nat × Nat)) (s e : Nat),
    CoversExactly s cs e →
      s ≤ e + 1 ∧
      (∀ c ∈ cs, c.2.1 ≤ c.2.2 ∧ s ≤ c.2.1 ∧ c.2.2 ≤ e) ∧
      List.Pairwise (fun a b => a.2.2 < b.2.1) cs ∧
      (∀ j, s ≤ j → j ≤ e → ∃ c ∈ cs, c.2.1 ≤ j ∧ j ≤ c.2.2) := by
  intro cs
  induction cs with
  | nil =>
    intro s e h
    have hse : s = e + 1 := h
    refine ⟨le_of_eq hse, by simp, List.Pairwise.nil, ?_⟩
    intro j hj1 hj2
    exfalso
    omega
  | cons c0 rest ih =>
    intro s e h
    obtain ⟨nm, s1, e1⟩ := c0
    obtain ⟨hs1, hse, hrest⟩ := h
    subst hs1
    obtain ⟨hb, hmem, hpw, hcov⟩ := ih (e1 + 1) e hrest
    refine ⟨by omega, ?_, ?_, ?_⟩
    · intro c hc
      rcases List.mem_cons.mp hc with h1 | h2
      · subst h1
        refine ⟨hse, le_refl _, ?_⟩
        show e1 ≤ e
        omega
      · have := hmem c h2
        exact ⟨this.1, by omega, this.2.2⟩
    · refine List.Pairwise.cons ?_ hpw
      intro b hb2
      have h21 := (hmem b hb2).2.1
      show e1 < b.2.1
      omega
    · intro j hj1 hj2
      by_cases hje : j ≤ e1
      · exact ⟨(nm, s1, e1), List.mem_cons_self _ _, hj1, hje⟩
      · obtain ⟨c, hc1, hc2⟩ := hcov j (by omega) hj2
        exact ⟨c, List.mem_cons_of_mem _ hc1, hc2⟩

/-- `chunks` on a non-empty list covers all its positions. -/
theorem chunks_covers (a : Nat) (rest : List Nat) :
    CoversExactly 0 (chunks (a :: rest)) rest.length := by
  have e : chunks (a :: rest) = chunksAux a 0 1 rest := by
    simp [chunks, chunksAux]
  rw [e]
  have h := chunksAux_covers rest a 0 1 (by omega)
  simpa using h

/-- Chunk stage indices: the head chunk carries the seed index, every
chunk index comes from the input, and on a non-decreasing input the
chunk indices are strictly increasing. -/
theorem chunksAux_fst : ∀ (l : List Nat) (cur s i : Nat),
    ((chunksAux cur s i l).map (fun c => c.1)).head? = some cur ∧
    (∀ c ∈ chunksAux cur s i l, c.1 = cur ∨ c.1 ∈ l) ∧
    (List.Chain (· ≤ ·) cur l →
      List.Chain' (fun a b : Nat × Nat × Nat => a.1 < b.1) (chunksAux cur s i l)) := by
  intro l
  induction l with
  | nil =>
    intro cur s i
    refine ⟨rfl, ?_, fun _ => List.chain'_singleton _⟩
    intro c hc
    rw [show chunksAux cur s i [] = [(cur, s, i - 1)] from rfl] at hc
    have : c = (cur, s, i - 1) := by simpa using hc
    subst this
    exact Or.inl rfl
  | cons a rest ih =>
    intro cur s i
    by_cases ha : a = cur
    · have e : chunksAux cur s i (a :: rest) = chunksAux cur s (i + 1) rest := by
        simp [chunksAux, ha]
      rw [e]
      obtain ⟨ih1, ih2, ih3⟩ := ih cur s (i + 1)
      refine ⟨ih1, ?_, fun hch => ih3 ?_⟩
      · intro c hc
        rcases ih2 c hc with h | h
        · exact Or.inl h
        · exact Or.inr (List.mem_cons_of_mem a h)
      · cases hch with
        | cons hle hch2 => rw [← ha]; exact hch2
    · have e : chunksAux cur s i (a :: rest) = (cur, s, i - 1) :: chunksAux a i (i + 1) rest := by
        simp [chunksAux, ha]
      rw [e]
      obtain ⟨ih1, ih2, ih3⟩ := ih a i (i + 1)
      refine ⟨rfl, ?_, fun hch => ?_⟩
      · intro c hc
        rcases List.mem_cons.mp hc with h | h
        · subst h
          exact Or.inl rfl
        · rcases ih2 c h with h2 | h2
          · exact Or.inr (by rw [h2]; exact List.mem_cons_self a rest)
          · exact Or.inr (List.mem_cons_of_mem a h2)
      · cases hch with
        | cons hle hch2 =>
          have hcur_lt : cur < a := lt_of_le_of_ne hle (fun hx => ha hx.symm)
          refine List.chain'_cons'.mpr ⟨?_, ih3 hch2⟩
          intro b hb2
          have hmap : ((chunksAux a i (i + 1) rest).map (fun c => c.1)).head? = some b.1 := by
            rw [List.head?_map, Option.mem_def.mp hb2]
            rfl
          rw [ih1] at hmap
          have : a = b.1 := by simpa using hmap
          simp only
          omega

/-- Updating a dict with a fresh key appends. -/
theorem dictUpsert_append : ∀ (rs : List (String × Nat × Nat)) (name : String) (s e : Nat),
    (∀ r ∈ rs, r.1 ≠ name) → dictUpsert rs name s e = rs ++ [(name, s, e)] := by
  intro rs
  induction rs with
  | nil => intro name s e _; rfl
  | cons r rest ih =>
    intro name s e h
    obtain ⟨k, s0, e0⟩ := r
    have hk : k ≠ name := h (k, s0, e0) (List.mem_cons_self _ _)
    show (if k = name then (k, s0, e) :: rest else (k, s0, e0) :: dictUpsert rest name s e)
      = ((k, s0, e0) :: rest) ++ [(name, s, e)]
    rw [if_neg hk, ih name s e (fun r hr => h r (List.mem_cons_of_mem _ hr))]
    rfl

/-- Folding `dictUpsert` over chunks with pairwise-distinct stage names
appends the renamed chunks in order. -/
theorem foldl_dictUpsert_eq : ∀ (cs : List (Nat × Nat × Nat)) (acc : List (String × Nat × Nat)),
    (∀ r ∈ acc, ∀ c ∈ cs, r.1 ≠ stageNames.getD c.1 "") →
    List.Pairwise (fun a b : Nat × Nat × Nat =>
      stageNames.getD a.1 "" ≠ stageNames.getD b.1 "") cs →
    cs.foldl (fun acc c => dictUpsert acc (stageNames.getD c.1 "") c.2.1 c.2.2) acc
      = acc ++ cs.map renameChunk := by
  intro cs
  induction cs with
  | nil => intro acc _ _; simp
  | cons c rest ih =>
    intro acc hfresh hpw
    rw [List.foldl_cons]
    have h1 : dictUpsert acc (stageNames.getD c.1 "") c.2.1 c.2.2 = acc ++ [renameChunk c] :=
      dictUpsert_append acc _ _ _ (fun r hr => hfresh r hr c (List.mem_cons_self _ _))
    have h2 := ih (acc ++ [renameChunk c])
      (by
        intro r hr c' hc'
        rcases List.mem_append.mp hr with h3 | h3
        · exact hfresh r h3 c' (List.mem_cons_of_mem _ hc')
        · have hr2 : r = renameChunk c := by simpa using h3
          rw [hr2]
          exact (List.pairwise_cons.mp hpw).1 c' hc')
      ((List.pairwise_cons.mp hpw).2)
    rw [h1, h2, List.append_assoc]
    rfl

/-- The five stage names are pairwise distinct. -/
theorem stageNames_inj : ∀ j, j < 5 → ∀ i, i < j →
    stageNames.getD i "" ≠ stageNames.getD j "" := by decide

/-- The ordinal of the `i`-th stage name is `i`. -/
theorem stageNames_indexOf : ∀ i, i < 5 → stageNames.indexOf (stageNames.getD i "") = i := by
  decide

/-- Master lemma about the ranges recovered from a non-empty,
non-decreasing, `0..4`-valued assignment: the dict equals the renamed
chunk list, the chunk indices are strictly increasing and bounded, and
the chunks cover all positions. -/
theorem rangesOfAssigned_eq (assigned : List Nat)
    (hch : List.Chain' (· ≤ ·) assigned) (hb : ∀ x ∈ assigned, x ≤ 4)
    (hne : assigned ≠ []) :
    rangesOfAssigned assigned = (chunks assigned).map renameChunk ∧
    List.Chain' (fun a b : Nat × Nat × Nat => a.1 < b.1) (chunks assigned) ∧
    (∀ c ∈ chunks assigned, c.1 ≤ 4) ∧
    CoversExactly 0 (chunks assigned) (assigned.length - 1) := by
  obtain ⟨a0, arest, rfl⟩ : ∃ a0 arest, assigned = a0 :: arest := by
    cases assigned with
    | nil => exact absurd rfl hne
    | cons a0 arest => exact ⟨a0, arest, rfl⟩
  have hch2 : List.Chain (· ≤ ·) a0 arest := hch
  have echunks : chunks (a0 :: arest) = chunksAux a0 0 1 arest := by
    simp [chunks, chunksAux]
  obtain ⟨hf1, hf2, hf3⟩ := chunksAux_fst arest a0 0 1
  have hchain_lt : List.Chain' (fun a b : Nat × Nat × Nat => a.1 < b.1) (chunks (a0 :: arest)) := by
    rw [echunks]
    exact hf3 hch2
  have hcle : ∀ c ∈ chunks (a0 :: arest), c.1 ≤ 4 := by
    intro c hc
    rw [echunks] at hc
    rcases hf2 c hc with h | h
    · rw [h]
      exact hb a0 (List.mem_cons_self _ _)
    · exact hb c.1 (List.mem_cons_of_mem _ h)
  have hpw_lt : List.Pairwise (fun a b : Nat × Nat × Nat => a.1 < b.1) (chunks (a0 :: arest)) := by
    haveI : IsTrans (Nat × Nat × Nat) (fun a b => a.1 < b.1) :=
      ⟨fun a b c h1 h2 => lt_trans h1 h2⟩
    exact List.chain'_iff_pairwise.mp hchain_lt
  have hpw_names : List.Pairwise (fun a b : Nat × Nat × Nat =>
      stageNames.getD a.1 "" ≠ stageNames.getD b.1 "") (chunks (a0 :: arest)) := by
    refine hpw_lt.imp_of_mem ?_
    intro a b hma hmb hlt
    have hb4 : b.1 ≤ 4 := hcle b hmb
    exact stageNames_inj b.1 (by omega) a.1 hlt
  refine ⟨?_, hchain_lt, hcle, ?_⟩
  · show (chunks (a0 :: arest)).foldl
      (fun acc c => dictUpsert acc (stageNames.getD c.1 "") c.2.1 c.2.2) []
      = (chunks (a0 :: arest)).map renameChunk
    rw [foldl_dictUpsert_eq (chunks (a0 :: arest)) [] (by simp) hpw_names]
    rfl
  · have := chunks_covers a0 arest
    simpa using this

/-- Shared facts about the assignment the segmenter computes for a
non-empty subtitle body. -/
theorem assigned_facts (body : List SubRow) (hne : body ≠ []) :
    List.Chain' (· ≤ ·) (monoPass (localPass 0 (body.map contentStr))) ∧
    (∀ x ∈ monoPass (localPass 0 (body.map contentStr)), x ≤ 4) ∧
    monoPass (localPass 0 (body.map contentStr)) ≠ [] ∧
    (monoPass (localPass 0 (body.map contentStr))).length = body.length := by
  refine ⟨monoPass_chain _, monoPass_le _ (localPass_le _ 0 (by omega)), ?_, ?_⟩
  · intro hx
    have hl := monoPass_length (localPass 0 (body.map contentStr))
    rw [hx, localPass_length, List.length_map] at hl
    exact hne (List.length_eq_zero.mp hl.symm)
  · rw [monoPass_length, localPass_length, List.length_map]

/-- C4: the per-line stage index sequence is non-decreasing after the
monotonicity pass, and consequently the recovered ranges, which are
listed in increasing `start_index` order, have non-decreasing stage
ordinals and do not overlap. -/
theorem claim4_stage_monotonicity :
    (∀ body : List SubRow,
      List.Chain' (· ≤ ·) (monoPass (localPass 0 (body.map contentStr)))) ∧
    (∀ body : List SubRow, body ≠ [] →
      List.Pairwise (fun a b : String × Nat × Nat => a.2.1 < b.2.1)
        (rangesOfAssigned (monoPass (localPass 0 (body.map contentStr)))) ∧
      List.Pairwise (fun a b : String × Nat × Nat =>
        stageNames.indexOf a.1 ≤ stageNames.indexOf b.1)
        (rangesOfAssigned (monoPass (localPass 0 (body.map contentStr)))) ∧
      List.Pairwise (fun a b : String × Nat × Nat => a.2.2 < b.2.1)
        (rangesOfAssigned (monoPass (localPass 0 (body.map contentStr))))) := by
  constructor
  · intro body
    exact monoPass_chain _
  · intro body hne
    obtain ⟨hch, hb, hanene, hlen⟩ := assigned_facts body hne
    obtain ⟨heq, hlt, hle4, hcov⟩ :=
      rangesOfAssigned_eq (monoPass (localPass 0 (body.map contentStr))) hch hb hanene
    obtain ⟨-, hmem, hpw_sep, -⟩ := covers_props _ _ _ hcov
    rw [heq]
    have hpw_lt : List.Pairwise (fun a b : Nat × Nat × Nat => a.1 < b.1)
        (chunks (monoPass (localPass 0 (body.map contentStr)))) := by
      haveI : IsTrans (Nat × Nat × Nat) (fun a b : Nat × Nat × Nat => a.1 < b.1) :=
        ⟨fun a b c h1 h2 => lt_trans h1 h2⟩
      exact List.chain'_iff_pairwise.mp hlt
    refine ⟨?_, ?_, ?_⟩
    · refine List.pairwise_map.mpr ?_
      refine hpw_sep.imp_of_mem ?_
      intro a b hma hmb hsep
      have ha := hmem a hma
      show a.2.1 < b.2.1
      omega
    · refine List.pairwise_map.mpr ?_
      refine hpw_lt.imp_of_mem ?_
      intro a b hma hmb hlt2
      show stageNames.indexOf (stageNames.getD a.1 "") ≤ stageNames.indexOf (stageNames.getD b.1 "")
      rw [stageNames_indexOf a.1 (by have := hle4 a hma; omega),
        stageNames_indexOf b.1 (by have := hle4 b hmb; omega)]
      omega
    · refine List.pairwise_map.mpr ?_
      refine hpw_sep.imp ?_
      intro a b hsep
      exact hsep

/-- Witness for C4 at a concrete body. -/
theorem claim4_witness :
    List.Pairwise (fun a b : String × Nat × Nat => a.2.2 < b.2.1)
      (rangesOfAssigned (monoPass (localPass 0
        (([{ content := some (.vstr "上课") }] : List SubRow).map contentStr)))) :=
  (claim4_stage_monotonicity.2 [{ content := some (.vstr "上课") }] (by decide)).2.2

set_option maxHeartbeats 2000000 in
/-- The fallback dict comprehension equals the recursive window list
over the same cuts and names. -/
theorem fallback_eq_cutWindows (n : Nat) : fallbackRanges n = cutWindows stageNames (cuts n) := by
  show (List.range 5).filterMap _ = _
  rw [show List.range 5 = [0, 1, 2, 3, 4] from rfl]
  rw [show stageNames = ["导入与任务建立", "故事复述与问题聚焦", "探究建模",
    "迁移练习与表达", "回扣称象与总结收束"] from rfl]
  rw [show cuts n = [0, n * 12 / 100, n * 30 / 100, n * 62 / 100, n * 84 / 100, n] from rfl]
  simp only [List.filterMap_cons, List.filterMap_nil, cutWindows, List.getD_cons_zero,
    List.getD_cons_succ]
  split_ifs <;> rfl

/-- The cut points are non-decreasing from `0`. -/
theorem cuts_chain (n : Nat) :
    List.Chain (· ≤ ·) 0 [n * 12 / 100, n * 30 / 100, n * 62 / 100, n * 84 / 100, n] := by
  have h12 : n * 12 / 100 ≤ n * 30 / 100 :=
    Nat.div_le_div_right (Nat.mul_le_mul (le_refl n) (by norm_num))
  have h23 : n * 30 / 100 ≤ n * 62 / 100 :=
    Nat.div_le_div_right (Nat.mul_le_mul (le_refl n) (by norm_num))
  have h34 : n * 62 / 100 ≤ n * 84 / 100 :=
    Nat.div_le_div_right (Nat.mul_le_mul (le_refl n) (by norm_num))
  have h45 : n * 84 / 100 ≤ n := by
    calc n * 84 / 100 ≤ n * 100 / 100 :=
          Nat.div_le_div_right (Nat.mul_le_mul (le_refl n) (by norm_num))
      _ = n := Nat.mul_div_cancel n (by norm_num)
  exact List.Chain.cons (Nat.zero_le _) (List.Chain.cons h12 (List.Chain.cons h23
    (List.Chain.cons h34 (List.Chain.cons h45 List.Chain.nil))))

/-- The window list of a non-decreasing cut list ending at `n ≥ 1`
covers `[c0, n-1]` exactly. -/
theorem cutWindows_covers : ∀ (cs : List Nat) (names : List String) (c0 n : Nat),
    1 ≤ n → List.Chain (· ≤ ·) c0 cs → (c0 :: cs).getLast? = some n →
    cs.length ≤ names.length →
    CoversExactly c0 (cutWindows names (c0 :: cs)) (n - 1) := by
  intro cs
  induction cs with
  | nil =>
    intro names c0 n hn hch hlast hlen
    have hc0 : c0 = n := by simpa using hlast
    have e : cutWindows names [c0] = [] := by
      cases names <;> rfl
    rw [e]
    show c0 = (n - 1) + 1
    omega
  | cons c1 rest ih =>
    intro names c0 n hn hch hlast hlen
    cases names with
    | nil => simp at hlen
    | cons nm names' =>
      cases hch with
      | cons h01 hch2 =>
        have hlast2 : (c1 :: rest).getLast? = some n := by
          rw [← List.getLast?_cons_cons (a := c0)]
          exact hlast
        have hIH := ih names' c1 n hn hch2 hlast2 (by simpa using hlen)
        have e : cutWindows (nm :: names') (c0 :: c1 :: rest)
            = (if c0 < c1 then [(nm, c0, c1 - 1)] else []) ++ cutWindows names' (c1 :: rest) := rfl
        rw [e]
        by_cases hc : c0 < c1
        · rw [if_pos hc]
          show CoversExactly c0 ((nm, c0, c1 - 1) :: cutWindows names' (c1 :: rest)) (n - 1)
          refine ⟨rfl, ?_, ?_⟩
          · show c0 ≤ c1 - 1
            omega
          · show CoversExactly ((c1 - 1) + 1) (cutWindows names' (c1 :: rest)) (n - 1)
            have h9 : (c1 - 1) + 1 = c1 := by omega
            rw [h9]
            exact hIH
        · rw [if_neg hc]
          have hc0c1 : c0 = c1 := by omega
          rw [List.nil_append, hc0c1]
          exact hIH

/-- The fallback ranges cover `[0, n-1]` exactly. -/
theorem fallback_covers (n : Nat) (hn : 1 ≤ n) :
    CoversExactly 0 (fallbackRanges n) (n - 1) := by
  rw [fallback_eq_cutWindows]
  exact cutWindows_covers [n * 12 / 100, n * 30 / 100, n * 62 / 100, n * 84 / 100, n]
    stageNames 0 n hn (cuts_chain n) rfl (by simp [stageNames, stage_defs])

/-- A keyword list with no match in the text filters to nothing. -/
theorem filter_len_zero (txt : String) (kws : List String)
    (hk : ∀ k ∈ kws, strIn k txt = false) :
    (kws.filter (fun k => strIn k txt)).length = 0 := by
  rw [List.filter_eq_nil_iff.mpr (fun k hkm => by simp [hk k hkm])]
  rfl

/-- A line with no stage-keyword match scores `[0,0,0,0,0]`. -/
theorem lineScores_zero (txt : String)
    (h : ∀ d ∈ stage_defs, ∀ k ∈ d.2, strIn k txt = false) :
    lineScores txt = [0, 0, 0, 0, 0] := by
  have h1 := filter_len_zero txt ["今天这节课", "走进", "谁能讲", "上课"]
    (h ("导入与任务建立", ["今天这节课", "走进", "谁能讲", "上课"]) (by simp [stage_defs]))
  have h2 := filter_len_zero txt ["从前", "曹操想称", "他先", "为什么", "直接称"]
    (h ("故事复述与问题聚焦", ["从前", "曹操想称", "他先", "为什么", "直接称"]) (by simp [stage_defs]))
  have h3 := filter_len_zero txt ["天平", "西瓜", "菠萝", "桃子", "A等于B", "等量"]
    (h ("探究建模", ["天平", "西瓜", "菠萝", "桃子", "A等于B", "等量"]) (by simp [stage_defs]))
  have h4 := filter_len_zero txt ["生活中", "小组", "你们的故事", "总结", "姓名牌"]
    (h ("迁移练习与表达", ["生活中", "小组", "你们的故事", "总结", "姓名牌"]) (by simp [stage_defs]))
  have h5 := filter_len_zero txt ["曹冲称象", "分量", "总量", "下课", "老师再见"]
    (h ("回扣称象与总结收束", ["曹冲称象", "分量", "总量", "下课", "老师再见"]) (by simp [stage_defs]))
  simp only [lineScores, stage_defs, List.map_cons, List.map_nil]
  rw [h1, h2, h3, h4, h5]

/-- A local step on a zero-scoring line keeps `prev`. -/
theorem localStep_zero (prev : Nat) (txt : String) (h : lineScores txt = [0, 0, 0, 0, 0]) :
    localStep prev txt = prev := by
  simp only [localStep, h]
  have e : (([0, 0, 0, 0, 0] : List Nat).foldl max 0) = 0 := rfl
  rw [e]
  simp only [if_pos]
  omega

/-- The local pass on all-zero-scoring lines assigns `0` throughout. -/
theorem localPass_zero : ∀ (ts : List String),
    (∀ t ∈ ts, lineScores t = [0, 0, 0, 0, 0]) →
    localPass 0 ts = List.replicate ts.length 0 := by
  intro ts
  induction ts with
  | nil => intro _; rfl
  | cons t rest ih =>
    intro h
    have h0 := localStep_zero 0 t (h t (List.mem_cons_self t rest))
    show localStep 0 t :: localPass (localStep 0 t) rest = _
    rw [h0, ih (fun t' ht' => h t' (List.mem_cons_of_mem t ht')), List.length_cons,
      List.replicate_succ]

/-- `monoAux 0` fixes an all-zero list. -/
theorem monoAux_zero : ∀ m : Nat, monoAux 0 (List.replicate m 0) = List.replicate m 0 := by
  intro m
  induction m with
  | zero => rfl
  | succ m ih =>
    rw [List.replicate_succ]
    show (if 0 < 0 then 0 else 0) :: monoAux (if 0 < 0 then 0 else 0) (List.replicate m 0)
      = 0 :: List.replicate m 0
    simp only [Nat.lt_irrefl, if_neg, if_false]
    rw [ih]

/-- The monotonicity pass fixes an all-zero list. -/
theorem monoPass_zero (m : Nat) : monoPass (List.replicate m 0) = List.replicate m 0 := by
  cases m with
  | zero => rfl
  | succ m =>
    rw [List.replicate_succ]
    show 0 :: monoAux 0 (List.replicate m 0) = 0 :: List.replicate m 0
    rw [monoAux_zero]

/-- The chunk loop collapses a constant run into a single chunk. -/
theorem chunksAux_rep : ∀ (m i cur s : Nat), 1 ≤ i →
    chunksAux cur s i (List.replicate m cur) = [(cur, s, i - 1 + m)] := by
  intro m
  induction m with
  | zero =>
    intro i cur s hi
    simp [chunksAux]
  | succ m ih =>
    intro i cur s hi
    rw [List.replicate_succ]
    have e : chunksAux cur s i (cur :: List.replicate m cur)
        = chunksAux cur s (i + 1) (List.replicate m cur) := by
      simp [chunksAux]
    rw [e, ih (i + 1) cur s (by omega)]
    have : (i + 1) - 1 + m = i - 1 + (m + 1) := by omega
    rw [this]

/-- The ranges of an all-zero assignment: one range for the first
stage. -/
theorem rangesOf_rep (n : Nat) (hn : 1 ≤ n) :
    rangesOfAssigned (List.replicate n 0) = [(stageNames.getD 0 "", 0, n - 1)] := by
  obtain ⟨m, rfl⟩ : ∃ m, n = m + 1 := ⟨n - 1, by omega⟩
  rw [List.replicate_succ]
  show (chunks (0 :: List.replicate m 0)).foldl _ [] = _
  have e2 : chunks (0 :: List.replicate m 0) = chunksAux 0 0 1 (List.replicate m 0) := by
    simp [chunks, chunksAux]
  rw [e2, chunksAux_rep m 1 0 0 (by omega)]
  show dictUpsert [] (stageNames.getD 0 "") 0 (1 - 1 + m) = _
  have : 1 - 1 + m = m + 1 - 1 := by omega
  rw [this]
  rfl

/-- C5: whenever fewer than five distinct stage names are recovered,
the segmenter discards the computed ranges and returns the
deterministic proportional split; in particular an input with zero
keyword matches anywhere yields exactly that split. -/
theorem claim5_proportional_fallback (body : List SubRow) (hne : body ≠ []) :
    ((rangesOfAssigned (monoPass (localPass 0 (body.map contentStr)))).length < 5 →
      split_stage_ranges body = fallbackRanges body.length) ∧
    ((∀ row ∈ body, ∀ d ∈ stage_defs, ∀ k ∈ d.2, strIn k (contentStr row) = false) →
      split_stage_ranges body = fallbackRanges body.length) := by
  have main : (rangesOfAssigned (monoPass (localPass 0 (body.map contentStr)))).length < 5 →
      split_stage_ranges body = fallbackRanges body.length := by
    intro h
    simp only [split_stage_ranges]
    rw [if_neg hne, if_pos h]
  refine ⟨main, fun h => main ?_⟩
  have hz : ∀ t ∈ body.map contentStr, lineScores t = [0, 0, 0, 0, 0] := by
    intro t ht
    obtain ⟨row, hrow, rfl⟩ := List.mem_map.mp ht
    exact lineScores_zero _ (h row hrow)
  have hlen : 1 ≤ body.length := by
    cases body with
    | nil => exact absurd rfl hne
    | cons r rest => simp
  have h1 : localPass 0 (body.map contentStr) = List.replicate body.length 0 := by
    rw [localPass_zero _ hz, List.length_map]
  rw [h1, monoPass_zero, rangesOf_rep body.length hlen]
  simp

/-- Witness for C5 at a concrete single-line body with no keyword
match. -/
theorem claim5_witness :
    split_stage_ranges [{ content := some (.vstr "大家好") }]
      = fallbackRanges 1 :=
  (claim5_proportional_fallback [{ content := some (.vstr "大家好") }] (by decide)).1 (by decide)

/-- C10: the stage-range mapping partitions the index range `0..n-1`:
its ranges are pairwise disjoint and every line index is covered, on
both the keyword-scored path and the proportional-fallback path. -/
theorem claim10_ranges_partition (body : List SubRow) (hne : body ≠ []) :
    List.Pairwise (fun a b : String × Nat × Nat => a.2.2 < b.2.1 ∨ b.2.2 < a.2.1)
      (split_stage_ranges body) ∧
    (∀ j, j < body.length → ∃ r ∈ split_stage_ranges body, r.2.1 ≤ j ∧ j ≤ r.2.2) := by
  have hlen1 : 1 ≤ body.length := by
    cases body with
    | nil => exact absurd rfl hne
    | cons r rest => simp
  simp only [split_stage_ranges]
  rw [if_neg hne]
  by_cases h5 : (rangesOfAssigned (monoPass (localPass 0 (body.map contentStr)))).length < 5
  · rw [if_pos h5]
    obtain ⟨-, hmem, hpw, hcovj⟩ := covers_props _ _ _ (fallback_covers body.length hlen1)
    refine ⟨hpw.imp (fun h => Or.inl h), ?_⟩
    intro j hj
    exact hcovj j (Nat.zero_le j) (by omega)
  · rw [if_neg h5]
    obtain ⟨hch, hb, hne2, hlen⟩ := assigned_facts body hne
    obtain ⟨heq, hlt, hle4, hcov⟩ := rangesOfAssigned_eq _ hch hb hne2
    obtain ⟨-, hmem, hpw, hcovj⟩ := covers_props _ _ _ hcov
    rw [heq]
    constructor
    · exact List.pairwise_map.mpr (hpw.imp (fun h => Or.inl h))
    · intro j hj
      obtain ⟨c, hc, hc2⟩ := hcovj j (Nat.zero_le j) (by omega)
      exact ⟨renameChunk c, List.mem_map_of_mem _ hc, hc2.1, hc2.2⟩

/-- Witness for C10 at a concrete body. -/
theorem claim10_witness :
    List.Pairwise (fun a b : String × Nat × Nat => a.2.2 < b.2.1 ∨ b.2.2 < a.2.1)
      (split_stage_ranges [{ content := some (.vstr "上课") }, { content := some (.vstr "从前") }]) :=
  (claim10_ranges_partition
    [{ content := some (.vstr "上课") }, { content := some (.vstr "从前") }] (by decide)).1

/-! ## Claims about malformed-input handling -/

/-- `ratFloor` of an integer. -/
theorem ratFloor_intCast (z : ℤ) : ratFloor (z : ℚ) = z := by
  unfold ratFloor
  rw [Rat.num_intCast, Rat.den_intCast]
  simp

/-- `pyRound` of an integer. -/
theorem pyRound_intCast (z : ℤ) : pyRound (z : ℚ) = z := by
  simp only [pyRound, ratFloor_intCast, sub_self]
  rw [if_pos (by norm_num : (0 : ℚ) < 1 / 2)]

/-- C9, counterexample to the literal claim: the core does not reject
malformed records.  A record whose end time precedes its start time
produces a fully formed label with the duration clamped to zero, and a
record whose text field is an integer is coerced by `str()` and
segmented normally — no validation failure occurs and full (not
partial, not absent) output is returned. -/
theorem claim9_counterexample :
    range_label [{ start := some 10, stop := some 5 }] (0, 0)
        = ⟨"00:10", "00:05", 0⟩ ∧
    split_stage_ranges [{ content := some (.vint 123) }]
        = [("回扣称象与总结收束", 0, 0)] := by
  constructor
  · have h10 : pyRound 10 = 10 := by
      rw [show (10 : ℚ) = ((10 : ℤ) : ℚ) by norm_num, pyRound_intCast]
    have h5 : pyRound 5 = 5 := by
      rw [show (5 : ℚ) = ((5 : ℤ) : ℚ) by norm_num, pyRound_intCast]
    show (⟨fmt_time 10, fmt_time 5,
        (if (5 : ℚ) - 10 < 0 then 0 else (5 : ℚ) - 10) / 60⟩ : RangeLabel) = _
    have e1 : fmt_time 10 = "00:10" := by
      simp only [fmt_time, h10]
      decide
    have e2 : fmt_time 5 = "00:05" := by
      simp only [fmt_time, h5]
      decide
    have e3 : (if (5 : ℚ) - 10 < 0 then 0 else (5 : ℚ) - 10) / 60 = 0 := by
      rw [if_pos (by norm_num : (5 : ℚ) - 10 < 0)]
      norm_num
    rw [e1, e2, e3]
  · decide

/-- C9 (amended): the core performs no input validation — a non-string
content field is silently coerced with `str()` and processed exactly
as the coerced string, and a record with `end < start` yields a label
whose duration is clamped to zero; no failure is raised on either. -/
theorem claim9_no_validation :
    (∀ body : List SubRow,
      split_stage_ranges (body.map coerceContent) = split_stage_ranges body) ∧
    (∀ (body : List SubRow) (s e : Nat),
      (body.getD e default).stop.getD ((body.getD e default).start.getD 0)
          ≤ (body.getD s default).start.getD 0 →
      (range_label body (s, e)).minutes = 0) := by
  constructor
  · intro body
    simp only [split_stage_ranges]
    by_cases hb : body = []
    · subst hb
      rfl
    · have hb2 : body.map coerceContent ≠ [] := by
        intro hx
        exact hb (List.map_eq_nil_iff.mp hx)
      rw [if_neg hb, if_neg hb2]
      have hmap : (body.map coerceContent).map contentStr = body.map contentStr := by
        rw [List.map_map]
        rfl
      rw [hmap, List.length_map]
  · intro body s e h
    show (if (body.getD e default).stop.getD ((body.getD e default).start.getD 0)
        - (body.getD s default).start.getD 0 < 0 then 0
      else (body.getD e default).stop.getD ((body.getD e default).start.getD 0)
        - (body.getD s default).start.getD 0) / 60 = 0
    by_cases h2 : (body.getD e default).stop.getD ((body.getD e default).start.getD 0)
        - (body.getD s default).start.getD 0 < 0
    · rw [if_pos h2]
      norm_num
    · rw [if_neg h2]
      have h3 : (body.getD e default).stop.getD ((body.getD e default).start.getD 0)
          - (body.getD s default).start.getD 0 = 0 := by
        have h4 : (body.getD e default).stop.getD ((body.getD e default).start.getD 0)
            - (body.getD s default).start.getD 0 ≤ 0 := by linarith
        have h5 : ¬((body.getD e default).stop.getD ((body.getD e default).start.getD 0)
            - (body.getD s default).start.getD 0 < 0) := h2
        linarith
      rw [h3]
      norm_num

/-- Witness for C9's amended statement at a concrete degenerate
record. -/
theorem claim9_witness :
    (range_label [{ start := some 0, stop := some 0 }] (0, 0)).minutes = 0 :=
  claim9_no_validation.2 [{ start := some 0, stop := some 0 }] 0 0 (le_refl 0)

end Bili

